import Mathlib

/-!
Verification of the ciqual-mcp ingestion pipeline and query gateway.

The development shallowly embeds the Python sources (src/data_loader.py,
src/ciqual_mcp/server.py, src/ciqual_mcp/database.py) into Lean:

- strings are lists of characters (Str);
- Python float values are modelled as exact rationals over the decimal
  literal grammar (the special values inf and nan, digit-group
  underscores, and non-ASCII case folding are outside the model);
- SQLite tables with a primary key are modelled as association lists
  with in-place replacement on key conflict (INSERT OR REPLACE);
  row order inside a table is a model artifact, since SQL result order
  is unspecified without ORDER BY;
- fallible Python code (int() conversions, whole-pipeline failure)
  is modelled with Except / Option; a caught exception is a value.
-/

namespace Ciqual

/-- Character list standing for a Python str. -/
abbrev Str := List Char

/-- Whitespace recognised by Python str.strip (ASCII range plus the
separator controls, NEL and NBSP; rarer Unicode space characters are
outside the model). -/
def isPySpace (c : Char) : Bool :=
  c = ' ' || c = '\t' || c = '\n' || c = '\r' || c = Char.ofNat 11 ||
  c = Char.ofNat 12 || c = Char.ofNat 28 || c = Char.ofNat 29 ||
  c = Char.ofNat 30 || c = Char.ofNat 31 || c = Char.ofNat 133 ||
  c = Char.ofNat 160

/-- Model of Python str.strip(): drop leading and trailing whitespace. -/
def pyStrip (s : Str) : Str :=
  ((s.dropWhile isPySpace).reverse.dropWhile isPySpace).reverse

/-- Model of clean_text (src/data_loader.py lines 41-55): strip, then map
the empty string and the sentinel "missing" to absence. -/
def clean_text : Option Str → Option Str
  | none => none
  | some s =>
    let t := pyStrip s
    if t = [] then none
    else if t = "missing".data then none
    else some t

/-- Numeric value of a digit string (most significant digit first). -/
def natVal (s : Str) : ℕ :=
  s.foldl (fun a c => 10 * a + (c.toNat - 48)) 0

/-- Model of Python int(str) on an already stripped string: optional
sign followed by a non-empty run of ASCII digits (digit-group
underscores are outside the model). -/
def pyInt (s : Str) : Option ℤ :=
  match s with
  | '+' :: r => if r ≠ [] ∧ r.all Char.isDigit then some (natVal r) else none
  | '-' :: r => if r ≠ [] ∧ r.all Char.isDigit then some (-(natVal r : ℤ)) else none
  | r => if r ≠ [] ∧ r.all Char.isDigit then some (natVal r) else none

/-- Ten to an integer power, as a rational. -/
def pow10 (e : ℤ) : ℚ :=
  if 0 ≤ e then (10 : ℚ) ^ e.toNat else 1 / (10 : ℚ) ^ (-e).toNat

/-- Mantissa of a Python float literal: digits, optionally split by one
decimal point, with at least one digit overall. -/
def parseMantissa (l : Str) : Option ℚ :=
  match l.dropWhile Char.isDigit with
  | [] =>
    if l.takeWhile Char.isDigit = [] then none
    else some (natVal (l.takeWhile Char.isDigit))
  | '.' :: fr =>
    if fr.dropWhile Char.isDigit = [] ∧
        (l.takeWhile Char.isDigit ≠ [] ∨ fr.takeWhile Char.isDigit ≠ []) then
      some ((natVal (l.takeWhile Char.isDigit) : ℚ) +
        (natVal (fr.takeWhile Char.isDigit) : ℚ) /
          (10 : ℚ) ^ (fr.takeWhile Char.isDigit).length)
    else none
  | _ => none

/-- Exponent character of a float literal. -/
def isExpChar (c : Char) : Bool := c = 'e' || c = 'E'

/-- Exponent part of a Python float literal: optional sign and a
non-empty run of digits. -/
def parseExp (l : Str) : Option ℤ :=
  match l with
  | '+' :: r => if r ≠ [] ∧ r.all Char.isDigit then some (natVal r) else none
  | '-' :: r => if r ≠ [] ∧ r.all Char.isDigit then some (-(natVal r : ℤ)) else none
  | r => if r ≠ [] ∧ r.all Char.isDigit then some (natVal r) else none

/-- Unsigned body of a Python float literal: mantissa with an optional
exponent clause. -/
def pyFloatBody (r : Str) : Option ℚ :=
  match r.dropWhile (fun c => !isExpChar c) with
  | [] => parseMantissa (r.takeWhile (fun c => !isExpChar c))
  | _ :: ex => do
    let mv ← parseMantissa (r.takeWhile (fun c => !isExpChar c))
    let e ← parseExp ex
    pure (mv * pow10 e)

/-- Model of Python float(str) on an already stripped string, over the
finite decimal literal grammar (inf, nan and underscores are outside
the model; values are exact rationals rather than rounded doubles). -/
def pyFloat (l : Str) : Option ℚ :=
  match l with
  | [] => pyFloatBody []
  | c :: r =>
    if c = '+' then pyFloatBody r
    else if c = '-' then (pyFloatBody r).map Neg.neg
    else pyFloatBody (c :: r)

/-- Decimal-comma to decimal-point substitution used by parse_number. -/
def commaDot (c : Char) : Char := if c = ',' then '.' else c

/-- Model of parse_number (src/data_loader.py lines 57-76): absent for
missing input and for the sentinels after stripping, otherwise every
comma becomes a decimal point and the result is parsed as a float;
a failed parse returns absence, never an error. -/
def parse_number : Option Str → Option ℚ
  | none => none
  | some v =>
    let t := pyStrip v
    if t = [] ∨ t = "-".data ∨ t = "traces".data then none
    else pyFloat (t.map commaDot)

/-- Whitespace matched by the regex class backslash-s in Python
(ASCII range plus separator controls, NEL and NBSP). -/
def isReSpace (c : Char) : Bool :=
  c = ' ' || c = '\t' || c = '\n' || c = '\r' || c = Char.ofNat 11 ||
  c = Char.ofNat 12 || c = Char.ofNat 28 || c = Char.ofNat 29 ||
  c = Char.ofNat 30 || c = Char.ofNat 31 || c = Char.ofNat 133 ||
  c = Char.ofNat 160

/-- Whether the text between parentheses matches the regex body
of extract_unit: one or more non-parenthesis characters, then /100,
an optional single whitespace, and g, with nothing after. -/
def unitShape (inner : Str) : Bool :=
  match inner.reverse with
  | 'g' :: '0' :: '0' :: '1' :: '/' :: pre => pre ≠ []
  | 'g' :: w :: '0' :: '0' :: '1' :: '/' :: pre => isReSpace w && pre ≠ []
  | _ => false

/-- Left-to-right scan of re.search for the extract_unit pattern: the
first opening parenthesis whose run up to the next closing parenthesis
has the unit shape yields that run. -/
def scanUnit : Str → Option Str
  | [] => none
  | c :: rest =>
    if c = '(' then
      if rest.dropWhile (fun d => d ≠ ')') ≠ [] ∧
          unitShape (rest.takeWhile (fun d => d ≠ ')')) then
        some (rest.takeWhile (fun d => d ≠ ')'))
      else scanUnit rest
    else scanUnit rest

/-- Model of extract_unit (src/data_loader.py lines 21-39): falsy input
gives absence; otherwise the first parenthesised unit match is returned
with its space characters removed. -/
def extract_unit : Option Str → Option Str
  | none => none
  | some s =>
    if s = [] then none
    else (scanUnit s).map (fun inner => inner.filter (fun c => c ≠ ' '))

/-- Python or on optional strings: the left operand wins unless it is
falsy (absent or empty). -/
def pyOrStr (a b : Option Str) : Option Str :=
  match a with
  | some s => if s = [] then b else some s
  | none => b

/-- Unit derivation for a nutrient (src/data_loader.py line 162): the
primary-language name is tried first, the secondary-language name is
the fallback. -/
def deriveUnit (fr eng : Option Str) : Option Str :=
  pyOrStr (extract_unit fr) (extract_unit eng)

/-! Association-list model of a SQLite table with a primary key.
INSERT OR REPLACE is an in-place replacement when the key is present
and an append otherwise. -/

/-- Table keyed by a primary key. -/
abbrev Table (κ α : Type) := List (κ × α)

/-- First binding for a key, if any. -/
def lookup? {κ α : Type} [DecidableEq κ] (m : Table κ α) (k : κ) : Option α :=
  (m.find? (fun p => decide (p.1 = k))).map Prod.snd

/-- Key-presence test. -/
def hasKey {κ α : Type} [DecidableEq κ] (m : Table κ α) (k : κ) : Bool :=
  (lookup? m k).isSome

/-- Model of INSERT OR REPLACE keyed by the primary key. -/
def upsert {κ α : Type} [DecidableEq κ] (m : Table κ α) (k : κ) (v : α) : Table κ α :=
  if hasKey m k then m.map (fun p => if p.1 = k then (k, v) else p)
  else m ++ [(k, v)]

/-- In-order sequence of upserts. -/
def upserts {κ α : Type} [DecidableEq κ] (ps : List (κ × α)) (m : Table κ α) : Table κ α :=
  ps.foldl (fun t p => upsert t p.1 p.2) m

/-- Key column of a table. -/
def keys {κ α : Type} (m : Table κ α) : List κ := m.map Prod.fst

/-- Well-formedness of a table: the primary key is unique. -/
def WFT {κ α : Type} (m : Table κ α) : Prop := (keys m).Nodup

/-- Left-biased choice on options. -/
def orO {α : Type} (a b : Option α) : Option α :=
  match a with
  | some x => some x
  | none => b

/-- Last value written for a key by a sequence of bindings. -/
def lastVal {κ α : Type} [DecidableEq κ] (ps : List (κ × α)) (j : κ) : Option α :=
  ps.foldl (fun acc p => if p.1 = j then some p.2 else acc) none

/-! Ingestion pipeline model (src/data_loader.py, initialize_database).
Each raw record carries the child-element text per tag, possibly absent. -/

/-- Raw CONST record of the nutrient file. -/
structure NutrientRec where
  const_code : Option Str
  const_nom_fr : Option Str
  const_nom_eng : Option Str
deriving DecidableEq

/-- Raw ALIM_GRP record of the optional food-group file. -/
structure GroupRec where
  grp_code : Option Str
  grp_nom_fr : Option Str
  grp_nom_eng : Option Str
deriving DecidableEq

/-- Raw ALIM record of the food file. -/
structure FoodRec where
  alim_code : Option Str
  alim_nom_fr : Option Str
  alim_nom_eng : Option Str
  alim_grp_code : Option Str
deriving DecidableEq

/-- Raw COMPO record of the composition file. -/
structure CompoRec where
  alim_code : Option Str
  const_code : Option Str
  teneur : Option Str
  code_confiance : Option Str
deriving DecidableEq

/-- Stored nutrient row (columns other than the key). -/
structure NutrientRow where
  const_nom_fr : Option Str
  const_nom_eng : Option Str
  unit : Option Str
deriving DecidableEq

/-- Stored food-group row. -/
structure GroupRow where
  grp_nom_fr : Option Str
  grp_nom_eng : Option Str
deriving DecidableEq

/-- Stored food row. -/
structure FoodRow where
  alim_nom_fr : Option Str
  alim_nom_eng : Option Str
  alim_grp_code : Option Str
deriving DecidableEq

/-- Stored composition row: the value is always present, confidence may
be absent. -/
structure CompRow where
  teneur : ℚ
  code_confiance : Option Str
deriving DecidableEq

/-- The SQLite store: four keyed tables plus the search index. -/
structure Store where
  foods : Table ℤ FoodRow
  nutrients : Table ℤ NutrientRow
  food_groups : Table Str GroupRow
  composition : Table (ℤ × ℤ) CompRow
  fts : List (ℤ × Option Str × Option Str)
deriving DecidableEq

/-- Freshly created store with empty tables. -/
def emptyStore : Store := ⟨[], [], [], [], []⟩

/-- Failure inside the ingestion transaction: an uncaught ValueError
from int(), or the post-load verification failure. -/
inductive LoadErr where
  | valueError
  | validationFailure
deriving DecidableEq

/-- Per-record action for nutrients (src/data_loader.py lines 156-166):
skip when the cleaned code is absent, fail like Python int() on a
non-integer code, otherwise the keyed row with the derived unit. -/
def nutrientKV (r : NutrientRec) : Except LoadErr (Option (ℤ × NutrientRow)) :=
  match clean_text r.const_code with
  | none => .ok none
  | some c =>
    match pyInt c with
    | none => .error .valueError
    | some k =>
      .ok (some (k, ⟨r.const_nom_fr, r.const_nom_eng,
        deriveUnit r.const_nom_fr r.const_nom_eng⟩))

/-- Per-record action for food groups (lines 175-184): no integer
conversion, so this phase never fails. -/
def groupKV (r : GroupRec) : Except LoadErr (Option (Str × GroupRow)) :=
  match clean_text r.grp_code with
  | none => .ok none
  | some c => .ok (some (c, ⟨r.grp_nom_fr, r.grp_nom_eng⟩))

/-- Per-record action for foods (lines 213-224). -/
def foodKV (r : FoodRec) : Except LoadErr (Option (ℤ × FoodRow)) :=
  match clean_text r.alim_code with
  | none => .ok none
  | some c =>
    match pyInt c with
    | none => .error .valueError
    | some k =>
      .ok (some (k, ⟨r.alim_nom_fr, r.alim_nom_eng, clean_text r.alim_grp_code⟩))

/-- Per-record action for composition (lines 254-263): both identifiers
must be present and the value must parse, otherwise the record is
skipped; a present identifier that is not an integer raises. -/
def compoRowOf (r : CompoRec) : Except LoadErr (Option ((ℤ × ℤ) × CompRow)) :=
  match clean_text r.alim_code, clean_text r.const_code with
  | some a, some c =>
    match parse_number r.teneur with
    | none => .ok none
    | some v =>
      match pyInt a, pyInt c with
      | some ai, some ci => .ok (some ((ai, ci), ⟨v, clean_text r.code_confiance⟩))
      | _, _ => .error .valueError
  | _, _ => .ok none

/-- Sequential per-record loading loop: a record is skipped, upserted,
or aborts the phase like an uncaught Python exception. -/
def loadRecs {R κ α : Type} [DecidableEq κ] (kv : R → Except LoadErr (Option (κ × α))) :
    List R → Table κ α → Except LoadErr (Table κ α)
  | [], t => .ok t
  | r :: rs, t =>
    match kv r with
    | .error e => .error e
    | .ok none => loadRecs kv rs t
    | .ok (some (k, v)) => loadRecs kv rs (upsert t k v)

/-- Batch size of the composition write loop (line 265). -/
def batchSize : ℕ := 1000

/-- Composition loading loop with batching (lines 252-279): valid rows
accumulate in a batch flushed by executemany when it reaches the batch
size, with a final flush of what remains. -/
def loadCompoAux : List CompoRec → Table (ℤ × ℤ) CompRow → List ((ℤ × ℤ) × CompRow) →
    Except LoadErr (Table (ℤ × ℤ) CompRow)
  | [], t, batch => .ok (if batch = [] then t else upserts batch t)
  | r :: rs, t, batch =>
    match compoRowOf r with
    | .error e => .error e
    | .ok none => loadCompoAux rs t batch
    | .ok (some kv) =>
      if batchSize ≤ (batch ++ [kv]).length then
        loadCompoAux rs (upserts (batch ++ [kv]) t) []
      else loadCompoAux rs t (batch ++ [kv])

/-- Composition phase as the source runs it. -/
def loadCompoBatched (rs : List CompoRec) (t : Table (ℤ × ℤ) CompRow) :
    Except LoadErr (Table (ℤ × ℤ) CompRow) :=
  loadCompoAux rs t []

/-- Reference loader: the same valid rows inserted one at a time with
no batching. -/
def loadCompoUnbatched (rs : List CompoRec) (t : Table (ℤ × ℤ) CompRow) :
    Except LoadErr (Table (ℤ × ℤ) CompRow) :=
  loadRecs compoRowOf rs t

/-- Search-index rebuild (lines 283-289): clear, then project key and
both names from the Food table in one pass. -/
def rebuildFts (foods : Table ℤ FoodRow) : List (ℤ × Option Str × Option Str) :=
  foods.map (fun p => (p.1, p.2.alim_nom_fr, p.2.alim_nom_eng))

/-- Extracted records of the four XML files; the food-group file is the
sole optional member. -/
structure Dataset where
  nutrients : List NutrientRec
  groups : Option (List GroupRec)
  foods : List FoodRec
  compos : List CompoRec
deriving DecidableEq

/-- Food-group phase (lines 169-184): skipped silently when the source
file is absent. -/
def loadGroupsOpt (dg : Option (List GroupRec)) (t : Table Str GroupRow) :
    Except LoadErr (Table Str GroupRow) :=
  match dg with
  | none => .ok t
  | some gs => loadRecs groupKV gs t

/-- Transactional body of initialize_database (steps inside the try
block before the commit): schema creation is CREATE IF NOT EXISTS and
leaves table contents unchanged; the phases then load in source order
and the search index is rebuilt from the loaded Food table. -/
def buildStore (d : Dataset) (s : Store) : Except LoadErr Store := do
  let nt ← loadRecs nutrientKV d.nutrients s.nutrients
  let gt ← loadGroupsOpt d.groups s.food_groups
  let ft ← loadRecs foodKV d.foods s.foods
  let ct ← loadCompoBatched d.compos s.composition
  pure { foods := ft, nutrients := nt, food_groups := gt,
         composition := ct, fts := rebuildFts ft }

/-- Whole run of initialize_database around the transaction: a failure
inside the body rolls back, leaving the store unchanged; otherwise the
transaction commits (line 292) and only afterwards is the Food count
verified (lines 295 and 304), so a verification failure leaves the
newly committed store in place while still signalling the error. -/
def runIngestion (d : Dataset) (s : Store) : Store × Option LoadErr :=
  match buildStore d s with
  | .error e => (s, some e)
  | .ok s1 =>
    if s1.foods.length = 0 then (s1, some .validationFailure)
    else (s1, none)

/-- Well-formed store: every table has unique primary keys. -/
def WFStore (s : Store) : Prop :=
  WFT s.foods ∧ WFT s.nutrients ∧ WFT s.food_groups ∧ WFT s.composition

deriving instance DecidableEq for Except

instance {κ α : Type} [DecidableEq κ] (m : Table κ α) : Decidable (WFT m) :=
  inferInstanceAs (Decidable ((keys m).Nodup))

instance (s : Store) : Decidable (WFStore s) :=
  inferInstanceAs (Decidable (WFT s.foods ∧ WFT s.nutrients ∧
    WFT s.food_groups ∧ WFT s.composition))

/-- Success of a per-record action. -/
def kvOk {R κ α : Type} (kv : R → Except LoadErr (Option (κ × α))) (r : R) : Bool :=
  match kv r with
  | .ok _ => true
  | .error _ => false

/-- Key-value pairs contributed by a record list, in order. -/
def validKVs {R κ α : Type} (kv : R → Except LoadErr (Option (κ × α))) (rs : List R) :
    List (κ × α) :=
  rs.filterMap (fun r => match kv r with | .ok o => o | .error _ => none)

/-- Bindings written by the optional group phase. -/
def groupPairs (dg : Option (List GroupRec)) : List (Str × GroupRow) :=
  match dg with
  | none => []
  | some gs => validKVs groupKV gs

/-! Resilient XML reader fallback (src/data_loader.py lines 197-210 for
the food file and lines 239-250 for the composition file). Bytes are
naturals below 256. -/

/-- Windows-1252 decode of one byte; the five unassigned bytes decode
to nothing, matching errors equal ignore. -/
def win1252Char (b : ℕ) : Option Char :=
  if b = 0x81 ∨ b = 0x8D ∨ b = 0x8F ∨ b = 0x90 ∨ b = 0x9D then none
  else if b < 0x80 ∨ (0xA0 ≤ b ∧ b ≤ 0xFF) then some (Char.ofNat b)
  else if b = 0x80 then some (Char.ofNat 0x20AC)
  else if b = 0x82 then some (Char.ofNat 0x201A)
  else if b = 0x83 then some (Char.ofNat 0x0192)
  else if b = 0x84 then some (Char.ofNat 0x201E)
  else if b = 0x85 then some (Char.ofNat 0x2026)
  else if b = 0x86 then some (Char.ofNat 0x2020)
  else if b = 0x87 then some (Char.ofNat 0x2021)
  else if b = 0x88 then some (Char.ofNat 0x02C6)
  else if b = 0x89 then some (Char.ofNat 0x2030)
  else if b = 0x8A then some (Char.ofNat 0x0160)
  else if b = 0x8B then some (Char.ofNat 0x2039)
  else if b = 0x8C then some (Char.ofNat 0x0152)
  else if b = 0x8E then some (Char.ofNat 0x017D)
  else if b = 0x91 then some (Char.ofNat 0x2018)
  else if b = 0x92 then some (Char.ofNat 0x2019)
  else if b = 0x93 then some (Char.ofNat 0x201C)
  else if b = 0x94 then some (Char.ofNat 0x201D)
  else if b = 0x95 then some (Char.ofNat 0x2022)
  else if b = 0x96 then some (Char.ofNat 0x2013)
  else if b = 0x97 then some (Char.ofNat 0x2014)
  else if b = 0x98 then some (Char.ofNat 0x02DC)
  else if b = 0x99 then some (Char.ofNat 0x2122)
  else if b = 0x9A then some (Char.ofNat 0x0161)
  else if b = 0x9B then some (Char.ofNat 0x203A)
  else if b = 0x9C then some (Char.ofNat 0x0153)
  else if b = 0x9E then some (Char.ofNat 0x017E)
  else if b = 0x9F then some (Char.ofNat 0x0178)
  else none

/-- Model of bytes.decode with the windows-1252 codec and errors equal
ignore: undecodable bytes are discarded. -/
def decode1252 (bs : List ℕ) : Str := bs.filterMap win1252Char

/-- Characters removed by the control-character regex (line 208):
codes 0 to 8, 11, 12, 14 to 31 and 127. -/
def strippedCtrl (c : Char) : Bool :=
  (c.toNat ≤ 8) || c.toNat = 11 || c.toNat = 12 ||
  (14 ≤ c.toNat && c.toNat ≤ 31) || c.toNat = 127

/-- Model of re.sub removing the control characters. -/
def stripCtrl (s : Str) : Str := s.filter (fun c => !strippedCtrl c)

/-- Python str.replace for a non-empty pattern: left-to-right scan with
non-overlapping replacement. The fuel argument, one unit per consumed
leading character, starts at the string length and keeps the recursion
structural. -/
def pyReplaceAux (pat rep : Str) : ℕ → Str → Str
  | _, [] => []
  | 0, s => s
  | n + 1, c :: rest =>
    if pat.isPrefixOf (c :: rest) then
      rep ++ pyReplaceAux pat rep n (List.drop (pat.length - 1) rest)
    else c :: pyReplaceAux pat rep n rest

/-- Python str.replace; the empty pattern, unused by the source, is a
no-op here. -/
def pyReplace (s pat rep : Str) : Str :=
  if pat = [] then s else pyReplaceAux pat rep s.length s

/-- Ampersand pattern of the food-file repair. -/
def ampPat : Str := ['&']

/-- Ampersand replacement of the food-file repair. -/
def ampRep : Str := ['&', 'a', 'm', 'p', ';']

/-- Known bad literal rewritten by the food-file repair (line 205). -/
def ltPat : Str := ['<', '1', 'Â', '°']

/-- Replacement for the known bad literal. -/
def ltRep : Str := ['&', 'l', 't', ';', '1', 'Â', '°']

/-- Fallback repair pass for the food file (lines 199-210): decode
windows-1252 discarding undecodable bytes, replace every ampersand
with its entity, rewrite the known bad literal, then strip control
characters; the repaired text then goes to the strict parser. -/
def repair_alim (bs : List ℕ) : Str :=
  stripCtrl (pyReplace (pyReplace (decode1252 bs) ampPat ampRep) ltPat ltRep)

/-- Fallback repair pass for the composition file (lines 241-250):
decode and strip control characters only; no ampersand escaping. -/
def repair_compo (bs : List ℕ) : Str :=
  stripCtrl (decode1252 bs)

/-- Byte encoding of an ASCII string, for concrete inputs. -/
def asciiBytes (s : Str) : List ℕ := s.map Char.toNat

/-- Reference single-character ampersand escape. -/
def escAmp : Str → Str
  | [] => []
  | c :: rest => (if c = '&' then ampRep else [c]) ++ escAmp rest

/-- Every ampersand heads an entity: it is immediately followed by
amp; or by lt;. -/
def ampOk : Str → Bool
  | [] => true
  | c :: rest =>
    if c = '&' then
      (['a', 'm', 'p', ';'].isPrefixOf rest || ['l', 't', ';'].isPrefixOf rest) && ampOk rest
    else ampOk rest

/-! Query gateway model (src/ciqual_mcp/server.py lines 54-94; the
duplicate src/server.py lines 66-106 has the identical query body). -/

/-- One value inside a result row. -/
inductive SqlVal where
  | s (v : Str)
  | n (v : ℚ)
  | null
deriving DecidableEq

/-- Result row: ordered mapping of column name to value. -/
abbrev Row := List (Str × SqlVal)

/-- Error-shaped row. -/
def errRow (msg : Str) : Row := [("error".data, SqlVal.s msg)]

/-- Python exception raised during execution: the three except clauses
of the query tool. -/
inductive SqlExc where
  | operational (msg : Str)
  | dbError (msg : Str)
  | unexpected (msg : Str)
deriving DecidableEq

/-- Message of the missing-store rejection (line 57). -/
def notInitMsg : Str :=
  "Database not initialized. Please run the server first to download data.".data

/-- Message of the write rejection (line 62). -/
def onlySelectMsg : Str := "Only SELECT queries are allowed for safety.".data

/-- Message of the missing-table branch (line 81). -/
def tableNotFoundMsg : Str :=
  ("Table not found. Available tables: foods, nutrients, composition, " ++
    "foods_fts, food_groups").data

/-- Message of the read-only branch (line 83). -/
def readOnlyMsg : Str :=
  "Database is read-only. Only SELECT queries are allowed.".data

/-- Substring test modelling the Python in operator on str. -/
def containsSub (s pat : Str) : Bool := s.tails.any (fun t => pat.isPrefixOf t)

/-- Error row produced by the except branches (lines 78-91). -/
def errRowFor : SqlExc → Row
  | .operational msg =>
    if containsSub msg "no such table".data then errRow tableNotFoundMsg
    else if containsSub msg "read-only".data || containsSub msg "readonly".data then
      errRow readOnlyMsg
    else errRow ("SQL error: ".data ++ msg)
  | .dbError msg => errRow ("Database error: ".data ++ msg)
  | .unexpected msg => errRow ("Unexpected error: ".data ++ msg)

/-- Lower-casing as applied to the SQL text; the accepted keywords are
ASCII. -/
def pyLower (s : Str) : Str := s.map Char.toLower

/-- Lexical read-only check (lines 60-61): the stripped, lowered text
must start with select or with. -/
def startsReadOnly (sql : Str) : Bool :=
  "select".data.isPrefixOf (pyLower (pyStrip sql)) ||
  "with".data.isPrefixOf (pyLower (pyStrip sql))

/-- Environment of one query call: whether the store file exists, and
the outcome of executing a statement on the read-only connection.
The connection is opened with a read-only URI and PRAGMA query_only,
so execution has no store-mutation channel; a raised exception is the
error branch. -/
structure QueryEnv where
  dbExists : Bool
  exec : Str → Except SqlExc (List Row)

/-- Model of the query tool (lines 54-94). The Boolean records whether
execution against the store was reached at all; both rejection paths
return before any connection is opened. -/
def queryRun (env : QueryEnv) (sql : Str) : List Row × Bool :=
  if env.dbExists = false then ([errRow notInitMsg], false)
  else if startsReadOnly sql = false then ([errRow onlySelectMsg], false)
  else
    match env.exec sql with
    | .ok rows => (rows, true)
    | .error e => ([errRowFor e], true)

/-! Concrete data used by the claim theorems below. -/

/-- Zero-food dataset: one valid nutrient record and no food records. -/
def noFoodData : Dataset :=
  ⟨[⟨some "328".data, some "Energie".data, some "Energy".data⟩], none, [], []⟩

/-- Environment with an existing store whose execution always succeeds. -/
def rejectEnv : QueryEnv := ⟨true, fun _ => .ok []⟩

/-- Composition record whose identifiers are present and whose value
parses, but whose food identifier is not an integer. -/
def badCompoRec : CompoRec := ⟨some "x".data, some "1".data, some "47".data, none⟩

/-- Composition record with an unparseable value, skipped silently. -/
def tracesRec : CompoRec :=
  ⟨some "2028".data, some "25000".data, some "traces".data, none⟩

/-- Well-formed sibling composition record. -/
def goodRec : CompoRec :=
  ⟨some "2028".data, some "328".data, some "47".data, some "A".data⟩

/-- Nutrient name with a tab inside the parenthesized unit pattern. -/
def tabUnitName : Str := ['A', ' ', '(', 'u', '/', '1', '0', '0', '\t', 'g', ')']

/-- Small synthetic dataset: one nutrient, one group, one food, one
valid composition record plus one traces record. -/
def demoData : Dataset :=
  ⟨[⟨some "328".data, some "Energie (kJ/100g)".data, some "Energy (kJ/100g)".data⟩],
   some [⟨some "01".data, some "Fruits".data, some "Fruits".data⟩],
   [⟨some "2028".data, some "Orange crue".data, some "Orange raw".data,
     some "01".data⟩],
   [⟨some "2028".data, some "328".data, some "47".data, some "A".data⟩,
    ⟨some "2028".data, some "25000".data, some "traces".data, none⟩]⟩

/-! Theorems. -/

section TableLemmas

variable {κ α : Type} [DecidableEq κ]

theorem lookup_nil (k : κ) : lookup? ([] : Table κ α) k = none := rfl

theorem lookup_cons (p : κ × α) (m : Table κ α) (k : κ) :
    lookup? (p :: m) k = if p.1 = k then some p.2 else lookup? m k := by
  by_cases h : p.1 = k <;> simp [lookup?, List.find?_cons, h]

theorem hasKey_iff_mem (m : Table κ α) (k : κ) :
    hasKey m k = true ↔ k ∈ keys m := by
  induction m with
  | nil => simp [hasKey, lookup?, keys]
  | cons p t ih =>
    rw [hasKey] at ih ⊢
    rw [lookup_cons]
    by_cases h : p.1 = k
    · simp [h, keys]
    · simp only [if_neg h, keys, List.map_cons, List.mem_cons]
      rw [ih]
      constructor
      · intro hm
        right
        exact hm
      · intro hm
        rcases hm with hm | hm
        · exact absurd hm.symm h
        · exact hm

theorem lookup_eq_none_of_not_mem {m : Table κ α} {k : κ}
    (h : k ∉ keys m) : lookup? m k = none := by
  have := (hasKey_iff_mem m k).not.mpr h
  simp [hasKey, Option.isSome_iff_exists] at this
  cases hl : lookup? m k with
  | none => rfl
  | some v => exact absurd hl (this v)

theorem keys_map_replace (m : Table κ α) (k : κ) (v : α) :
    keys (m.map (fun p => if p.1 = k then (k, v) else p)) = keys m := by
  induction m with
  | nil => rfl
  | cons p t ih =>
    have h1 : (if p.1 = k then (k, v) else p).1 = p.1 := by
      by_cases h : p.1 = k <;> simp [h]
    simp only [keys, List.map_cons] at ih ⊢
    rw [h1, ih]

theorem keys_upsert (m : Table κ α) (k : κ) (v : α) :
    keys (upsert m k v) = if hasKey m k then keys m else keys m ++ [k] := by
  by_cases h : hasKey m k
  · rw [upsert, if_pos h, if_pos h, keys_map_replace]
  · rw [upsert, if_neg h, if_neg h]
    simp [keys]

theorem hasKey_cons (p : κ × α) (t : Table κ α) (k : κ) :
    hasKey (p :: t) k = (decide (p.1 = k) || hasKey t k) := by
  rw [hasKey, lookup_cons]
  by_cases h : p.1 = k <;> simp [h, hasKey]

theorem lookup_map_replace (m : Table κ α) (k : κ) (v : α) (j : κ) :
    lookup? (m.map (fun p => if p.1 = k then (k, v) else p)) j =
      if j = k then (if hasKey m k then some v else none) else lookup? m j := by
  induction m with
  | nil => by_cases h : j = k <;> simp [lookup?, hasKey, h]
  | cons p t ih =>
    rw [List.map_cons, lookup_cons, lookup_cons, hasKey_cons]
    by_cases hpk : p.1 = k
    · rw [if_pos hpk]
      by_cases hjk : j = k
      · subst hjk
        simp [ih, hpk]
      · have hkj : ¬ (k = j) := fun h => hjk h.symm
        have hpj : ¬ (p.1 = j) := by rw [hpk]; exact hkj
        simp [ih, hjk, hkj, hpj]
    · rw [if_neg hpk]
      by_cases hjk : j = k
      · subst hjk
        have hpj : ¬ (p.1 = j) := hpk
        simp [ih, hpk, hpj]
      · by_cases hpj : p.1 = j
        · simp [hpj, hjk]
        · simp [ih, hpk, hpj, hjk]

theorem orO_none (a : Option α) : orO a none = a := by
  cases a <;> rfl

theorem lookup_append_single (m : Table κ α) (k : κ) (v : α) (j : κ) :
    lookup? (m ++ [(k, v)]) j = orO (lookup? m j) (if k = j then some v else none) := by
  induction m with
  | nil => by_cases h : k = j <;> simp [lookup?, orO, h]
  | cons p t ih =>
    rw [List.cons_append, lookup_cons, lookup_cons, ih]
    by_cases h : p.1 = j <;> simp [h, orO]

theorem lookup_upsert (m : Table κ α) (k : κ) (v : α) (j : κ) :
    lookup? (upsert m k v) j = if j = k then some v else lookup? m j := by
  by_cases h : hasKey m k
  · rw [upsert, if_pos h, lookup_map_replace]
    by_cases hjk : j = k <;> simp [hjk, h]
  · rw [upsert, if_neg h, lookup_append_single]
    by_cases hjk : j = k
    · subst hjk
      have hnone : lookup? m j = none := by
        cases hl : lookup? m j with
        | none => rfl
        | some x => rw [hasKey, hl] at h; simp at h
      simp [hnone, orO]
    · have hkj : ¬ (k = j) := fun hh => hjk hh.symm
      simp [hkj, hjk, orO_none]

theorem hasKey_upsert_mono {m : Table κ α} {j : κ} (k : κ) (v : α)
    (h : hasKey m j = true) : hasKey (upsert m k v) j = true := by
  rw [hasKey, lookup_upsert]
  by_cases hjk : j = k
  · simp [hjk]
  · rw [if_neg hjk]
    exact h

theorem WFT_upsert {m : Table κ α} (k : κ) (v : α) (h : WFT m) :
    WFT (upsert m k v) := by
  by_cases hk : hasKey m k
  · unfold WFT
    rw [keys_upsert, if_pos hk]
    exact h
  · unfold WFT
    rw [keys_upsert, if_neg hk]
    have hmem : k ∉ keys m := fun hm => hk ((hasKey_iff_mem m k).mpr hm)
    have hdj : (keys m).Disjoint [k] := by
      intro a ha hb
      simp at hb
      subst hb
      exact hmem ha
    exact List.Nodup.append h (List.nodup_singleton k) hdj

theorem upserts_nil (m : Table κ α) : upserts [] m = m := rfl

theorem upserts_cons (p : κ × α) (ps : List (κ × α)) (m : Table κ α) :
    upserts (p :: ps) m = upserts ps (upsert m p.1 p.2) := rfl

theorem upserts_append (ps qs : List (κ × α)) (m : Table κ α) :
    upserts (ps ++ qs) m = upserts qs (upserts ps m) := by
  simp [upserts, List.foldl_append]

theorem lastVal_fold (ps : List (κ × α)) (j : κ) (acc : Option α) :
    ps.foldl (fun acc p => if p.1 = j then some p.2 else acc) acc =
      orO (lastVal ps j) acc := by
  induction ps generalizing acc with
  | nil => cases acc <;> rfl
  | cons p ps ih =>
    have hr : lastVal (p :: ps) j
        = ps.foldl (fun acc q => if q.1 = j then some q.2 else acc)
            (if p.1 = j then some p.2 else none) := by
      rw [lastVal, List.foldl_cons]
    rw [List.foldl_cons, ih, hr, ih]
    cases lastVal ps j <;> by_cases h : p.1 = j <;> simp [orO, h]

theorem lastVal_cons (p : κ × α) (ps : List (κ × α)) (j : κ) :
    lastVal (p :: ps) j = orO (lastVal ps j) (if p.1 = j then some p.2 else none) := by
  rw [lastVal]
  simp only [List.foldl_cons]
  rw [lastVal_fold]

theorem orO_assoc (a b c : Option α) : orO (orO a b) c = orO a (orO b c) := by
  cases a <;> cases b <;> rfl

theorem orO_self (a b : Option α) : orO a (orO a b) = orO a b := by
  cases a <;> rfl

theorem lookup_upserts (ps : List (κ × α)) (m : Table κ α) (j : κ) :
    lookup? (upserts ps m) j = orO (lastVal ps j) (lookup? m j) := by
  induction ps generalizing m with
  | nil => cases h : lookup? m j <;> simp [upserts, orO, lastVal, h]
  | cons p ps ih =>
    rw [upserts_cons, ih, lastVal_cons, orO_assoc]
    congr 1
    rw [lookup_upsert]
    by_cases h : p.1 = j
    · subst h
      simp [orO]
    · have : ¬ j = p.1 := fun hh => h hh.symm
      simp [orO, h, this]

theorem lastVal_isSome_of_mem {ps : List (κ × α)} {j : κ}
    (h : j ∈ ps.map Prod.fst) : (lastVal ps j).isSome := by
  induction ps with
  | nil => simp at h
  | cons p ps ih =>
    rw [lastVal_cons]
    simp only [List.map_cons, List.mem_cons] at h
    cases hl : lastVal ps j with
    | some x => simp [orO]
    | none =>
      rcases h with h | h
      · simp [orO, h.symm]
      · have := ih h
        rw [hl] at this
        simp at this

theorem hasKey_upserts_of_mem {ps : List (κ × α)} {j : κ} (m : Table κ α)
    (h : j ∈ ps.map Prod.fst) : hasKey (upserts ps m) j = true := by
  rw [hasKey, lookup_upserts]
  cases hl : lastVal ps j with
  | some x => simp [orO]
  | none =>
    have := lastVal_isSome_of_mem h
    rw [hl] at this
    simp at this

theorem keys_upserts_eq {ps : List (κ × α)} {m : Table κ α}
    (h : ∀ j ∈ ps.map Prod.fst, hasKey m j = true) :
    keys (upserts ps m) = keys m := by
  induction ps generalizing m with
  | nil => rfl
  | cons p ps ih =>
    rw [upserts_cons]
    have hp : hasKey m p.1 = true := h p.1 (by simp)
    have : keys (upsert m p.1 p.2) = keys m := by rw [keys_upsert, if_pos hp]
    rw [ih, this]
    intro j hj
    exact hasKey_upsert_mono p.1 p.2 (h j (by simp; right; exact (by simpa using hj)))

theorem WFT_upserts (ps : List (κ × α)) {m : Table κ α} (h : WFT m) :
    WFT (upserts ps m) := by
  induction ps generalizing m with
  | nil => exact h
  | cons p ps ih => exact ih (WFT_upsert p.1 p.2 h)

theorem table_ext : ∀ (m m2 : Table κ α), WFT m → WFT m2 → keys m = keys m2 →
    (∀ k, lookup? m k = lookup? m2 k) → m = m2 := by
  intro m
  induction m with
  | nil =>
    intro m2 _ _ hk _
    cases m2 with
    | nil => rfl
    | cons q t2 => simp [keys] at hk
  | cons p t ih =>
    intro m2 hw hw2 hk hl
    cases m2 with
    | nil => simp [keys] at hk
    | cons q t2 =>
      simp only [keys, List.map_cons, List.cons.injEq] at hk
      obtain ⟨hk1, hk2⟩ := hk
      have hv : p.2 = q.2 := by
        have := hl p.1
        rw [lookup_cons, if_pos rfl, lookup_cons, if_pos hk1.symm] at this
        exact (Option.some.injEq _ _).mp this
      have hpq : p = q := Prod.ext hk1 hv
      subst hpq
      have hwt : WFT t := (List.nodup_cons.mp hw).2
      have hwt2 : WFT t2 := (List.nodup_cons.mp hw2).2
      have hnt : p.1 ∉ keys t := (List.nodup_cons.mp hw).1
      have hnt2 : p.1 ∉ keys t2 := (List.nodup_cons.mp hw2).1
      have : t = t2 := by
        apply ih t2 hwt hwt2 hk2
        intro k
        by_cases h : k = p.1
        · subst h
          rw [lookup_eq_none_of_not_mem hnt, lookup_eq_none_of_not_mem hnt2]
        · have := hl k
          rw [lookup_cons, if_neg (fun hh => h hh.symm), lookup_cons,
            if_neg (fun hh => h hh.symm)] at this
          exact this
      rw [this]

theorem upserts_idem (ps : List (κ × α)) {m : Table κ α} (h : WFT m) :
    upserts ps (upserts ps m) = upserts ps m := by
  apply table_ext
  · exact WFT_upserts ps (WFT_upserts ps h)
  · exact WFT_upserts ps h
  · exact keys_upserts_eq (fun j hj => hasKey_upserts_of_mem m hj)
  · intro k
    rw [lookup_upserts, lookup_upserts, orO_self]

end TableLemmas

section PipelineLemmas

variable {R κ α : Type} [DecidableEq κ] {kv : R → Except LoadErr (Option (κ × α))}

theorem loadRecs_ok (rs : List R) (h : ∀ r ∈ rs, kvOk kv r = true) (t : Table κ α) :
    loadRecs kv rs t = .ok (upserts (validKVs kv rs) t) := by
  induction rs generalizing t with
  | nil => rfl
  | cons r rs ih =>
    have hr := h r (List.mem_cons_self r rs)
    have ht : ∀ x ∈ rs, kvOk kv x = true := fun x hx => h x (List.mem_cons_of_mem r hx)
    cases hkv : kv r with
    | error e =>
      rw [kvOk, hkv] at hr
      simp at hr
    | ok o =>
      cases o with
      | none =>
        simp only [loadRecs, hkv, validKVs, List.filterMap_cons]
        simpa only [validKVs] using ih ht t
      | some kvp =>
        obtain ⟨k, v⟩ := kvp
        simp only [loadRecs, hkv, validKVs, List.filterMap_cons, upserts, List.foldl_cons]
        simpa only [validKVs, upserts] using ih ht (upsert t k v)

theorem loadRecs_allOk {rs : List R} {t t2 : Table κ α}
    (h : loadRecs kv rs t = .ok t2) : ∀ r ∈ rs, kvOk kv r = true := by
  induction rs generalizing t with
  | nil =>
    intro r hr
    simp at hr
  | cons r rs ih =>
    intro x hx
    cases hkv : kv r with
    | error e => simp [loadRecs, hkv] at h
    | ok o =>
      rcases List.mem_cons.mp hx with hx | hx
      · subst hx
        rw [kvOk, hkv]
      · cases o with
        | none => exact ih (by simpa [loadRecs, hkv] using h) x hx
        | some kvp =>
          obtain ⟨k, v⟩ := kvp
          exact ih (by simpa [loadRecs, hkv] using h) x hx

theorem loadRecs_err {rs : List R} {t : Table κ α} {e : LoadErr}
    (h : loadRecs kv rs t = .error e) (t2 : Table κ α) :
    loadRecs kv rs t2 = .error e := by
  induction rs generalizing t t2 with
  | nil => simp [loadRecs] at h
  | cons r rs ih =>
    cases hkv : kv r with
    | error e2 =>
      simp only [loadRecs, hkv] at h ⊢
      exact h
    | ok o =>
      cases o with
      | none =>
        simp only [loadRecs, hkv] at h ⊢
        exact ih h t2
      | some kvp =>
        obtain ⟨k, v⟩ := kvp
        simp only [loadRecs, hkv] at h ⊢
        exact ih h (upsert t2 k v)

theorem loadCompoAux_eq (rs : List CompoRec) (t : Table (ℤ × ℤ) CompRow)
    (batch : List ((ℤ × ℤ) × CompRow)) :
    loadCompoAux rs t batch = loadCompoUnbatched rs (upserts batch t) := by
  induction rs generalizing t batch with
  | nil =>
    by_cases h : batch = []
    · subst h
      simp [loadCompoAux, loadCompoUnbatched, loadRecs, upserts]
    · simp [loadCompoAux, h, loadCompoUnbatched, loadRecs]
  | cons r rs ih =>
    cases hkv : compoRowOf r with
    | error e =>
      simp [loadCompoAux, loadCompoUnbatched, loadRecs, hkv]
    | ok o =>
      cases o with
      | none =>
        simp only [loadCompoAux, loadCompoUnbatched, loadRecs, hkv]
        exact ih t batch
      | some kvp =>
        have hsingle : upsert (upserts batch t) kvp.1 kvp.2 = upserts (batch ++ [kvp]) t := by
          rw [upserts_append]
          rfl
        by_cases hlen : batchSize ≤ (batch ++ [kvp]).length
        · simp only [loadCompoAux, hkv, if_pos hlen, loadCompoUnbatched, loadRecs]
          rw [ih]
          simp only [loadCompoUnbatched, upserts_nil, hsingle]
        · simp only [loadCompoAux, hkv, if_neg hlen, loadCompoUnbatched, loadRecs]
          rw [ih]
          simp only [loadCompoUnbatched, hsingle]

theorem loadCompoBatched_eq (rs : List CompoRec) (t : Table (ℤ × ℤ) CompRow) :
    loadCompoBatched rs t = loadCompoUnbatched rs t := by
  rw [loadCompoBatched, loadCompoAux_eq, upserts_nil]

end PipelineLemmas

theorem runIngestion_fst {d : Dataset} {s s1 : Store} (h : buildStore d s = .ok s1) :
    (runIngestion d s).1 = s1 := by
  rw [runIngestion, h]
  by_cases h0 : s1.foods.length = 0 <;> simp [h0]

theorem ex_bind_ok {α β ε : Type} (a : α) (f : α → Except ε β) :
    (Except.ok a : Except ε α) >>= f = f a := rfl

theorem ex_bind_error {α β ε : Type} (e : ε) (f : α → Except ε β) :
    (Except.error e : Except ε α) >>= f = Except.error e := rfl

theorem ex_map_ok {α β ε : Type} (g : α → β) (a : α) :
    (g <$> (Except.ok a : Except ε α)) = Except.ok (g a) := rfl

theorem ex_map_error {α β ε : Type} (g : α → β) (e : ε) :
    (g <$> (Except.error e : Except ε α)) = Except.error e := rfl

theorem ex_pure {α ε : Type} (a : α) : (pure a : Except ε α) = Except.ok a := rfl

theorem groupKV_ok (r : GroupRec) : kvOk groupKV r = true := by
  cases h : clean_text r.grp_code <;> simp [kvOk, groupKV, h]

theorem loadGroupsOpt_eq (dg : Option (List GroupRec)) (t : Table Str GroupRow) :
    loadGroupsOpt dg t = .ok (upserts (groupPairs dg) t) := by
  cases dg with
  | none => simp [loadGroupsOpt, groupPairs, upserts_nil]
  | some gs =>
    rw [loadGroupsOpt, groupPairs, loadRecs_ok gs (fun r _ => groupKV_ok r) t]

theorem buildStore_idem {d : Dataset} {s s1 : Store} (hWF : WFStore s)
    (hb : buildStore d s = .ok s1) : buildStore d s1 = .ok s1 := by
  obtain ⟨hWf, hWn, hWg, hWc⟩ := hWF
  cases hn : loadRecs nutrientKV d.nutrients s.nutrients with
  | error e => simp [buildStore, hn, ex_bind_error] at hb
  | ok nt =>
  cases hf : loadRecs foodKV d.foods s.foods with
  | error e =>
    simp [buildStore, hn, loadGroupsOpt_eq, hf, ex_bind_ok, ex_bind_error] at hb
  | ok ft =>
  cases hc : loadCompoBatched d.compos s.composition with
  | error e =>
    simp [buildStore, hn, loadGroupsOpt_eq, hf, hc, ex_bind_ok, ex_bind_error,
      ex_map_error] at hb
  | ok ct =>
  have hb2 : s1 = ⟨ft, nt, upserts (groupPairs d.groups) s.food_groups,
      ct, rebuildFts ft⟩ := by
    have h3 := hb
    simp only [buildStore, hn, loadGroupsOpt_eq, hf, hc, ex_bind_ok,
      ex_map_ok, ex_pure, Except.ok.injEq] at h3
    exact h3.symm
  have hcu : loadRecs compoRowOf d.compos s.composition = .ok ct := by
    have h4 : loadCompoUnbatched d.compos s.composition = .ok ct := by
      rw [← loadCompoBatched_eq]
      exact hc
    exact h4
  have hnAll := loadRecs_allOk hn
  have hfAll := loadRecs_allOk hf
  have hcAll := loadRecs_allOk hcu
  have hnEq : nt = upserts (validKVs nutrientKV d.nutrients) s.nutrients := by
    have h4 := loadRecs_ok d.nutrients hnAll s.nutrients
    rw [hn] at h4
    exact (Except.ok.injEq _ _).mp h4
  have hfEq : ft = upserts (validKVs foodKV d.foods) s.foods := by
    have h4 := loadRecs_ok d.foods hfAll s.foods
    rw [hf] at h4
    exact (Except.ok.injEq _ _).mp h4
  have hcEq : ct = upserts (validKVs compoRowOf d.compos) s.composition := by
    have h4 := loadRecs_ok d.compos hcAll s.composition
    rw [hcu] at h4
    exact (Except.ok.injEq _ _).mp h4
  have hn2 : loadRecs nutrientKV d.nutrients nt = .ok nt := by
    rw [loadRecs_ok d.nutrients hnAll nt, hnEq, upserts_idem _ hWn]
  have hf2 : loadRecs foodKV d.foods ft = .ok ft := by
    rw [loadRecs_ok d.foods hfAll ft, hfEq, upserts_idem _ hWf]
  have hc2 : loadCompoBatched d.compos ct = .ok ct := by
    rw [loadCompoBatched_eq]
    show loadRecs compoRowOf d.compos ct = .ok ct
    rw [loadRecs_ok d.compos hcAll ct, hcEq, upserts_idem _ hWc]
  have hg2 : upserts (groupPairs d.groups)
      (upserts (groupPairs d.groups) s.food_groups) =
      upserts (groupPairs d.groups) s.food_groups := upserts_idem _ hWg
  rw [hb2]
  simp only [buildStore, hn2, loadGroupsOpt_eq, hf2, hc2, hg2, ex_bind_ok, ex_map_ok,
    ex_pure]

theorem ingestion_state_idem (d : Dataset) (s : Store) (hWF : WFStore s) :
    (runIngestion d (runIngestion d s).1).1 = (runIngestion d s).1 := by
  cases hb : buildStore d s with
  | error e =>
    simp [runIngestion, hb]
  | ok s1 =>
    have h1 : (runIngestion d s).1 = s1 := runIngestion_fst hb
    have h2 : (runIngestion d s1).1 = s1 := runIngestion_fst (buildStore_idem hWF hb)
    rw [h1, h2]

section RepairLemmas

theorem pyReplaceAux_zero (pat rep : Str) (s : Str) : pyReplaceAux pat rep 0 s = s := by
  cases s <;> rfl

theorem replAux_cons_match (pat rep : Str) (n : ℕ) (c : Char) (rest : Str)
    (h : pat.isPrefixOf (c :: rest) = true) :
    pyReplaceAux pat rep (n + 1) (c :: rest) =
      rep ++ pyReplaceAux pat rep n (List.drop (pat.length - 1) rest) := by
  simp [pyReplaceAux, h]

theorem replAux_cons_nomatch (pat rep : Str) (n : ℕ) (c : Char) (rest : Str)
    (h : pat.isPrefixOf (c :: rest) = false) :
    pyReplaceAux pat rep (n + 1) (c :: rest) = c :: pyReplaceAux pat rep n rest := by
  simp [pyReplaceAux, h]

theorem pyReplaceAux_amp (s : Str) : ∀ n, s.length ≤ n →
    pyReplaceAux ampPat ampRep n s = escAmp s := by
  induction s with
  | nil =>
    intro n _
    cases n <;> rfl
  | cons c rest ih =>
    intro n hn
    cases n with
    | zero => simp at hn
    | succ m =>
      have hm : rest.length ≤ m := by
        simp only [List.length_cons] at hn
        omega
      by_cases h : c = '&'
      · subst h
        have hp : ampPat.isPrefixOf ('&' :: rest) = true := by
          simp [ampPat, List.isPrefixOf]
        rw [replAux_cons_match ampPat ampRep m '&' rest hp]
        have hdrop : List.drop (ampPat.length - 1) rest = rest := by
          simp [ampPat]
        rw [hdrop, ih m hm]
        simp [escAmp]
      · have hp : ampPat.isPrefixOf (c :: rest) = false := by
          simp [ampPat, List.isPrefixOf]
          exact fun hc => absurd hc.symm h
        rw [replAux_cons_nomatch ampPat ampRep m c rest hp, ih m hm]
        simp [escAmp, h]

theorem pyReplace_amp (s : Str) : pyReplace s ampPat ampRep = escAmp s := by
  rw [pyReplace, if_neg (by simp [ampPat])]
  exact pyReplaceAux_amp s s.length le_rfl

theorem ampOk_cons_ne (c : Char) (rest : Str) (h : ¬ c = '&') :
    ampOk (c :: rest) = ampOk rest := by
  simp [ampOk, h]

theorem isPrefixOf_of_append (pre r3 : Str) :
    pre.isPrefixOf (pre ++ r3) = true := by
  induction pre with
  | nil => simp [List.isPrefixOf]
  | cons c pre ih => simp [List.isPrefixOf, ih]

theorem ampOk_cons_amp (rest : Str) :
    ampOk ('&' :: rest) =
      (((['a', 'm', 'p', ';'] : Str).isPrefixOf rest ||
        (['l', 't', ';'] : Str).isPrefixOf rest) && ampOk rest) := by
  rfl

theorem ampOk_escAmp (s : Str) : ampOk (escAmp s) = true := by
  induction s with
  | nil => rfl
  | cons c rest ih =>
    by_cases h : c = '&'
    · subst h
      have hshape : escAmp ('&' :: rest) =
          '&' :: 'a' :: 'm' :: 'p' :: ';' :: escAmp rest := by
        simp [escAmp, ampRep]
      rw [hshape, ampOk_cons_amp, Bool.and_eq_true]
      constructor
      · rw [Bool.or_eq_true]
        left
        exact isPrefixOf_of_append ['a', 'm', 'p', ';'] (escAmp rest)
      · rw [ampOk_cons_ne _ _ (by decide), ampOk_cons_ne _ _ (by decide),
          ampOk_cons_ne _ _ (by decide), ampOk_cons_ne _ _ (by decide)]
        exact ih
    · have hshape : escAmp (c :: rest) = c :: escAmp rest := by
        simp [escAmp, h]
      rw [hshape, ampOk_cons_ne _ _ h]
      exact ih

theorem pyReplaceAux_lt_keeps (pre : Str) (hpre : ∀ c ∈ pre, ¬ c = '<') :
    ∀ n r2, ∃ r3, pyReplaceAux ltPat ltRep n (pre ++ r2) = pre ++ r3 := by
  induction pre with
  | nil =>
    intro n r2
    exact ⟨pyReplaceAux ltPat ltRep n r2, rfl⟩
  | cons c pre ih =>
    intro n r2
    have hc : ¬ c = '<' := hpre c (by simp)
    cases n with
    | zero => exact ⟨r2, by rw [pyReplaceAux_zero]⟩
    | succ m =>
      have hp : ltPat.isPrefixOf (c :: (pre ++ r2)) = false := by
        simp [ltPat, List.isPrefixOf]
        exact fun hcc => absurd hcc.symm hc
      rw [List.cons_append, replAux_cons_nomatch ltPat ltRep m c (pre ++ r2) hp]
      obtain ⟨r3, hr3⟩ := ih (fun x hx => hpre x (by simp [hx])) m r2
      exact ⟨r3, by rw [hr3, List.cons_append]⟩

theorem ampOk_pyReplaceAux_lt : ∀ n (s : Str), s.length ≤ n → ampOk s = true →
    ampOk (pyReplaceAux ltPat ltRep n s) = true := by
  intro n
  induction n with
  | zero =>
    intro s hl h
    have hs : s = [] := List.length_eq_zero.mp (Nat.le_zero.mp hl)
    subst hs
    exact h
  | succ m ih =>
    intro s hl h
    cases s with
    | nil => exact h
    | cons c rest =>
      have hrl : rest.length ≤ m := by
        simp only [List.length_cons] at hl
        omega
      by_cases hlt : ltPat.isPrefixOf (c :: rest) = true
      · obtain ⟨r, hr⟩ : ∃ r, c :: rest = '<' :: '1' :: 'Â' :: '°' :: r := by
          obtain ⟨t, ht⟩ := List.isPrefixOf_iff_prefix.mp hlt
          exact ⟨t, ht.symm⟩
        obtain ⟨hc, hrest⟩ :=
          (List.cons.injEq c rest '<' ('1' :: 'Â' :: '°' :: r)).mp hr
        subst hc
        subst hrest
        rw [replAux_cons_match ltPat ltRep m '<' _ hlt]
        have hdrop : List.drop (ltPat.length - 1) ('1' :: 'Â' :: '°' :: r) = r := by
          simp [ltPat]
        rw [hdrop]
        have hampr : ampOk r = true := by
          rw [ampOk_cons_ne _ _ (by decide), ampOk_cons_ne _ _ (by decide),
            ampOk_cons_ne _ _ (by decide), ampOk_cons_ne _ _ (by decide)] at h
          exact h
        have hshape : (ltRep ++ pyReplaceAux ltPat ltRep m r : Str) =
            '&' :: 'l' :: 't' :: ';' :: '1' :: 'Â' :: '°' ::
              pyReplaceAux ltPat ltRep m r := by
          simp [ltRep]
        rw [hshape, ampOk_cons_amp, Bool.and_eq_true]
        constructor
        · rw [Bool.or_eq_true]
          right
          exact isPrefixOf_of_append ['l', 't', ';']
            ('1' :: 'Â' :: '°' :: pyReplaceAux ltPat ltRep m r)
        · rw [ampOk_cons_ne _ _ (by decide), ampOk_cons_ne _ _ (by decide),
            ampOk_cons_ne _ _ (by decide), ampOk_cons_ne _ _ (by decide),
            ampOk_cons_ne _ _ (by decide), ampOk_cons_ne _ _ (by decide)]
          have hr4 : r.length ≤ m := by
            have h5 : ('1' :: 'Â' :: '°' :: r).length ≤ m := hrl
            simp only [List.length_cons] at h5
            omega
          exact ih r hr4 hampr
      · have hlt2 : ltPat.isPrefixOf (c :: rest) = false :=
          Bool.eq_false_iff.mpr hlt
        rw [replAux_cons_nomatch ltPat ltRep m c rest hlt2]
        by_cases hc : c = '&'
        · subst hc
          rw [ampOk_cons_amp, Bool.and_eq_true] at h
          obtain ⟨hor, hrest⟩ := h
          rw [Bool.or_eq_true] at hor
          rw [ampOk_cons_amp, Bool.and_eq_true]
          refine ⟨?_, ih rest hrl hrest⟩
          rw [Bool.or_eq_true]
          rcases hor with hp | hp
          · left
            obtain ⟨t, ht⟩ := List.isPrefixOf_iff_prefix.mp hp
            obtain ⟨r3, hr3⟩ := pyReplaceAux_lt_keeps ['a', 'm', 'p', ';']
              (by decide) m t
            rw [← ht, hr3]
            exact isPrefixOf_of_append _ _
          · right
            obtain ⟨t, ht⟩ := List.isPrefixOf_iff_prefix.mp hp
            obtain ⟨r3, hr3⟩ := pyReplaceAux_lt_keeps ['l', 't', ';']
              (by decide) m t
            rw [← ht, hr3]
            exact isPrefixOf_of_append _ _
        · rw [ampOk_cons_ne _ _ hc] at h
          rw [ampOk_cons_ne _ _ hc]
          exact ih rest hrl h

theorem ampOk_stripCtrl : ∀ n (s : Str), s.length ≤ n → ampOk s = true →
    ampOk (stripCtrl s) = true := by
  intro n
  induction n with
  | zero =>
    intro s hl h
    have hs : s = [] := List.length_eq_zero.mp (Nat.le_zero.mp hl)
    subst hs
    exact h
  | succ m ih =>
    intro s hl h
    cases s with
    | nil => exact h
    | cons c rest =>
      have hrl : rest.length ≤ m := by
        simp only [List.length_cons] at hl
        omega
      by_cases hc : c = '&'
      · subst hc
        rw [ampOk_cons_amp, Bool.and_eq_true] at h
        obtain ⟨hor, hrest⟩ := h
        rw [Bool.or_eq_true] at hor
        rcases hor with hp | hp
        · obtain ⟨t, ht⟩ := List.isPrefixOf_iff_prefix.mp hp
          have hrw : rest = 'a' :: 'm' :: 'p' :: ';' :: t := ht.symm
          subst hrw
          have hshape : stripCtrl ('&' :: 'a' :: 'm' :: 'p' :: ';' :: t) =
              '&' :: 'a' :: 'm' :: 'p' :: ';' :: stripCtrl t := by
            simp [stripCtrl, List.filter_cons, strippedCtrl]
          rw [hshape, ampOk_cons_amp, Bool.and_eq_true]
          constructor
          · rw [Bool.or_eq_true]
            left
            exact isPrefixOf_of_append ['a', 'm', 'p', ';'] (stripCtrl t)
          · rw [ampOk_cons_ne _ _ (by decide), ampOk_cons_ne _ _ (by decide),
              ampOk_cons_ne _ _ (by decide), ampOk_cons_ne _ _ (by decide)]
            have hampt : ampOk t = true := by
              rw [ampOk_cons_ne _ _ (by decide), ampOk_cons_ne _ _ (by decide),
                ampOk_cons_ne _ _ (by decide), ampOk_cons_ne _ _ (by decide)] at hrest
              exact hrest
            have htl : t.length ≤ m := by
              simp only [List.length_cons] at hrl
              omega
            exact ih t htl hampt
        · obtain ⟨t, ht⟩ := List.isPrefixOf_iff_prefix.mp hp
          have hrw : rest = 'l' :: 't' :: ';' :: t := ht.symm
          subst hrw
          have hshape : stripCtrl ('&' :: 'l' :: 't' :: ';' :: t) =
              '&' :: 'l' :: 't' :: ';' :: stripCtrl t := by
            simp [stripCtrl, List.filter_cons, strippedCtrl]
          rw [hshape, ampOk_cons_amp, Bool.and_eq_true]
          constructor
          · rw [Bool.or_eq_true]
            right
            exact isPrefixOf_of_append ['l', 't', ';'] (stripCtrl t)
          · rw [ampOk_cons_ne _ _ (by decide), ampOk_cons_ne _ _ (by decide),
              ampOk_cons_ne _ _ (by decide)]
            have hampt : ampOk t = true := by
              rw [ampOk_cons_ne _ _ (by decide), ampOk_cons_ne _ _ (by decide),
                ampOk_cons_ne _ _ (by decide)] at hrest
              exact hrest
            have htl : t.length ≤ m := by
              simp only [List.length_cons] at hrl
              omega
            exact ih t htl hampt
      · rw [ampOk_cons_ne _ _ hc] at h
        by_cases hk : strippedCtrl c = true
        · have hshape : stripCtrl (c :: rest) = stripCtrl rest := by
            simp [stripCtrl, List.filter_cons, hk]
          rw [hshape]
          exact ih rest hrl h
        · have hshape : stripCtrl (c :: rest) = c :: stripCtrl rest := by
            simp only [stripCtrl, List.filter_cons]
            simp [hk]
          rw [hshape, ampOk_cons_ne _ _ hc]
          exact ih rest hrl h

theorem filter_not_self (p : Char → Bool) (l : Str) :
    (l.filter (fun c => !p c)).filter p = [] := by
  induction l with
  | nil => rfl
  | cons c rest ih =>
    by_cases h : p c <;> simp [List.filter_cons, h, ih]

theorem count_amp_stripCtrl (s : Str) :
    (stripCtrl s).count '&' = s.count '&' := by
  induction s with
  | nil => rfl
  | cons c rest ih =>
    by_cases hk : strippedCtrl c = true
    · have hcne : ¬ c = '&' := by
        intro hcc
        subst hcc
        exact absurd hk (by decide)
      have hshape : stripCtrl (c :: rest) = stripCtrl rest := by
        simp [stripCtrl, List.filter_cons, hk]
      rw [hshape, ih, List.count_cons]
      simp [hcne]
    · have hshape : stripCtrl (c :: rest) = c :: stripCtrl rest := by
        simp [stripCtrl, List.filter_cons, hk]
      rw [hshape, List.count_cons, List.count_cons, ih]

end RepairLemmas

section NormalizerLemmas

theorem dropWhile_eq_self_all {p : Char → Bool} (l : Str)
    (h : ∀ c ∈ l, p c = false) : l.dropWhile p = l := by
  cases l with
  | nil => rfl
  | cons c rest =>
    rw [List.dropWhile_cons]
    simp [h c (List.mem_cons_self c rest)]

theorem pyStrip_eq_self {l : Str} (h : ∀ c ∈ l, isPySpace c = false) :
    pyStrip l = l := by
  rw [pyStrip, dropWhile_eq_self_all l h,
    dropWhile_eq_self_all l.reverse (fun c hc => h c (List.mem_reverse.mp hc)),
    List.reverse_reverse]

theorem takeWhile_all {p : Char → Bool} (l : Str) (h : ∀ c ∈ l, p c = true) :
    l.takeWhile p = l ∧ l.dropWhile p = [] := by
  induction l with
  | nil => exact ⟨rfl, rfl⟩
  | cons c rest ih =>
    obtain ⟨h1, h2⟩ := ih (fun x hx => h x (List.mem_cons_of_mem c hx))
    rw [List.takeWhile_cons, List.dropWhile_cons]
    simp [h c (List.mem_cons_self c rest), h1, h2]

theorem takeWhile_append_stop {p : Char → Bool} (l1 : Str) (c : Char) (l2 : Str)
    (h1 : ∀ x ∈ l1, p x = true) (hc : p c = false) :
    (l1 ++ c :: l2).takeWhile p = l1 ∧ (l1 ++ c :: l2).dropWhile p = c :: l2 := by
  induction l1 with
  | nil =>
    rw [List.nil_append, List.takeWhile_cons, List.dropWhile_cons]
    simp [hc]
  | cons x l1 ih =>
    obtain ⟨ih1, ih2⟩ := ih (fun y hy => h1 y (List.mem_cons_of_mem x hy))
    rw [List.cons_append, List.takeWhile_cons, List.dropWhile_cons]
    simp [h1 x (List.mem_cons_self x l1), ih1, ih2]

theorem digit_not_pyspace {c : Char} (h : c.isDigit = true) :
    isPySpace c = false := by
  by_cases hs : isPySpace c = true
  · exfalso
    have hmem : c ∈ ([' ', '\t', '\n', '\r', Char.ofNat 11, Char.ofNat 12,
        Char.ofNat 28, Char.ofNat 29, Char.ofNat 30, Char.ofNat 31,
        Char.ofNat 133, Char.ofNat 160] : List Char) := by
      simp only [isPySpace, Bool.or_eq_true, decide_eq_true_eq] at hs
      simp only [List.mem_cons, List.not_mem_nil, or_false]
      tauto
    fin_cases hmem <;> exact absurd h (by decide)
  · exact Bool.eq_false_iff.mpr hs

theorem map_commaDot_digits (l : Str) (h : ∀ c ∈ l, c.isDigit = true) :
    l.map commaDot = l := by
  induction l with
  | nil => rfl
  | cons c rest ih =>
    have hc : ¬ c = ',' := by
      intro hcc
      subst hcc
      exact absurd (h ',' (List.mem_cons_self _ _)) (by decide)
    rw [List.map_cons, ih (fun x hx => h x (List.mem_cons_of_mem c hx))]
    simp [commaDot, hc]

theorem pyFloat_unsigned (c0 : Char) (r : Str) (h1 : ¬ c0 = '+') (h2 : ¬ c0 = '-') :
    pyFloat (c0 :: r) = pyFloatBody (c0 :: r) := by
  rw [pyFloat, if_neg h1, if_neg h2]

theorem parse_number_some (v : Str)
    (hne : ¬ (pyStrip v = [] ∨ pyStrip v = "-".data ∨ pyStrip v = "traces".data)) :
    parse_number (some v) = pyFloat ((pyStrip v).map commaDot) := by
  rw [parse_number]
  rw [if_neg hne]

theorem parse_number_sentinel (s : Str)
    (h : pyStrip s = [] ∨ pyStrip s = "-".data ∨ pyStrip s = "traces".data) :
    parse_number (some s) = none := by
  rw [parse_number, if_pos h]

theorem parse_number_comma (d1 d2 : Str) (h1 : d1 ≠ []) (_h2 : d2 ≠ [])
    (ha1 : ∀ c ∈ d1, c.isDigit = true) (ha2 : ∀ c ∈ d2, c.isDigit = true) :
    parse_number (some (d1 ++ ',' :: d2)) =
      some ((natVal d1 : ℚ) + (natVal d2 : ℚ) / (10 : ℚ) ^ d2.length) := by
  obtain ⟨c0, d1t, rfl⟩ : ∃ c0 d1t, d1 = c0 :: d1t := by
    cases d1 with
    | nil => exact absurd rfl h1
    | cons a b => exact ⟨a, b, rfl⟩
  have hd0 : c0.isDigit = true := ha1 c0 (List.mem_cons_self _ _)
  have hns : ∀ c ∈ ((c0 :: d1t) ++ ',' :: d2), isPySpace c = false := by
    intro c hc
    rcases List.mem_append.mp hc with hc | hc
    · exact digit_not_pyspace (ha1 c hc)
    · rcases List.mem_cons.mp hc with hc | hc
      · subst hc
        decide
      · exact digit_not_pyspace (ha2 c hc)
  have hstrip : pyStrip ((c0 :: d1t) ++ ',' :: d2) = (c0 :: d1t) ++ ',' :: d2 :=
    pyStrip_eq_self hns
  have hne : ¬ (pyStrip ((c0 :: d1t) ++ ',' :: d2) = [] ∨
      pyStrip ((c0 :: d1t) ++ ',' :: d2) = "-".data ∨
      pyStrip ((c0 :: d1t) ++ ',' :: d2) = "traces".data) := by
    rw [hstrip]
    intro hcon
    rcases hcon with hcon | hcon | hcon
    · simp at hcon
    · have hh := congrArg List.head? hcon
      rw [show List.head? (((c0 :: d1t) ++ ',' :: d2 : Str)) = some c0 from rfl,
        show List.head? ("-".data : Str) = some '-' from rfl] at hh
      have : c0 = '-' := by
        injection hh
      subst this
      exact absurd hd0 (by decide)
    · have hh := congrArg List.head? hcon
      rw [show List.head? (((c0 :: d1t) ++ ',' :: d2 : Str)) = some c0 from rfl,
        show List.head? ("traces".data : Str) = some 't' from rfl] at hh
      have : c0 = 't' := by
        injection hh
      subst this
      exact absurd hd0 (by decide)
  rw [parse_number_some _ hne, hstrip]
  have hmap : ((c0 :: d1t) ++ ',' :: d2).map commaDot = (c0 :: d1t) ++ '.' :: d2 := by
    rw [List.map_append, map_commaDot_digits _ ha1, List.map_cons,
      map_commaDot_digits _ ha2]
    rfl
  rw [hmap]
  have hc0p : ¬ c0 = '+' := by
    intro hcc
    subst hcc
    exact absurd hd0 (by decide)
  have hc0m : ¬ c0 = '-' := by
    intro hcc
    subst hcc
    exact absurd hd0 (by decide)
  rw [show ((c0 :: d1t) ++ '.' :: d2 : Str) = c0 :: (d1t ++ '.' :: d2) from rfl]
  rw [pyFloat_unsigned c0 _ hc0p hc0m]
  rw [show (c0 :: (d1t ++ '.' :: d2) : Str) = (c0 :: d1t) ++ '.' :: d2 from rfl]
  have hnoexp : ∀ c ∈ ((c0 :: d1t) ++ '.' :: d2 : Str), (!isExpChar c) = true := by
    intro c hc
    rcases List.mem_append.mp hc with hc | hc
    · have := ha1 c hc
      simp only [isExpChar, Bool.not_eq_true', Bool.or_eq_false_iff,
        decide_eq_false_iff_not]
      constructor
      · intro hcc
        subst hcc
        exact absurd this (by decide)
      · intro hcc
        subst hcc
        exact absurd this (by decide)
    · rcases List.mem_cons.mp hc with hc | hc
      · subst hc
        decide
      · have := ha2 c hc
        simp only [isExpChar, Bool.not_eq_true', Bool.or_eq_false_iff,
          decide_eq_false_iff_not]
        constructor
        · intro hcc
          subst hcc
          exact absurd this (by decide)
        · intro hcc
          subst hcc
          exact absurd this (by decide)
  obtain ⟨htw, hdw⟩ := takeWhile_all _ hnoexp
  simp only [pyFloatBody, hdw, htw]
  obtain ⟨htd, hdd⟩ := takeWhile_append_stop (c0 :: d1t) '.' d2 ha1 (by decide)
  obtain ⟨htd2, hdd2⟩ := takeWhile_all d2 ha2
  simp only [parseMantissa, hdd, htd, htd2, hdd2]
  rw [if_pos ⟨trivial, Or.inl (by simp)⟩]

end NormalizerLemmas

section ScanUnitLemmas

theorem dropWhile_head_false {p : Char → Bool} :
    ∀ (l : Str) (c : Char) (t : Str), l.dropWhile p = c :: t → p c = false := by
  intro l
  induction l with
  | nil =>
    intro c t h
    simp at h
  | cons x rest ih =>
    intro c t h
    rw [List.dropWhile_cons] at h
    by_cases hx : p x = true
    · rw [if_pos hx] at h
      exact ih c t h
    · rw [if_neg hx] at h
      have hxc : x = c := ((List.cons.injEq x rest c t).mp h).1
      subst hxc
      exact Bool.eq_false_iff.mpr hx

theorem scanUnit_sound : ∀ (s inner : Str), scanUnit s = some inner →
    ∃ pre post, s = pre ++ '(' :: (inner ++ ')' :: post) ∧
      unitShape inner = true ∧ ')' ∉ inner := by
  intro s
  induction s with
  | nil =>
    intro inner h
    simp [scanUnit] at h
  | cons c rest ih =>
    intro inner h
    simp only [scanUnit] at h
    by_cases hc : c = '('
    · rw [if_pos hc] at h
      by_cases hcond : (rest.dropWhile (fun d => d ≠ ')') ≠ [] ∧
          unitShape (rest.takeWhile (fun d => d ≠ ')')) = true)
      · rw [if_pos hcond] at h
        obtain ⟨hne, hshape⟩ := hcond
        have hinner : rest.takeWhile (fun d => d ≠ ')') = inner :=
          Option.some.inj h
        obtain ⟨c1, post, hdp⟩ : ∃ c1 post,
            rest.dropWhile (fun d => d ≠ ')') = c1 :: post := by
          cases hdp : rest.dropWhile (fun d => d ≠ ')') with
          | nil => exact absurd hdp hne
          | cons a b => exact ⟨a, b, rfl⟩
        have hc1 : c1 = ')' := by
          have := dropWhile_head_false rest c1 post hdp
          simpa using this
        subst hc1
        refine ⟨[], post, ?_, hinner ▸ hshape, ?_⟩
        · subst hc
          rw [List.nil_append]
          have h0 := List.takeWhile_append_dropWhile (p := fun d => decide (d ≠ ')'))
            (l := rest)
          rw [hinner, hdp] at h0
          rw [h0.symm]
        · intro hmem
          rw [← hinner] at hmem
          have := List.mem_takeWhile_imp hmem
          simp at this
      · rw [if_neg hcond] at h
        obtain ⟨pre, post, hdec, hsh, hnin⟩ := ih inner h
        subst hc
        exact ⟨'(' :: pre, post, by rw [hdec, List.cons_append], hsh, hnin⟩
    · rw [if_neg hc] at h
      obtain ⟨pre, post, hdec, hsh, hnin⟩ := ih inner h
      exact ⟨c :: pre, post, by rw [hdec, List.cons_append], hsh, hnin⟩

theorem scanUnit_complete : ∀ (pre inner post : Str), ')' ∉ inner →
    unitShape inner = true →
    (scanUnit (pre ++ '(' :: (inner ++ ')' :: post))).isSome = true := by
  intro pre
  induction pre with
  | nil =>
    intro inner post hnin hshape
    rw [List.nil_append]
    simp only [scanUnit, if_pos rfl]
    have hall : ∀ x ∈ inner, (decide (x ≠ ')')) = true := by
      intro x hx
      simp only [decide_eq_true_eq]
      intro he
      exact hnin (he ▸ hx)
    obtain ⟨ht, hd⟩ := takeWhile_append_stop inner ')' post hall (by simp)
    rw [ht, hd, if_pos (show (')' :: post ≠ [] ∧ unitShape inner = true) from
      ⟨List.cons_ne_nil _ _, hshape⟩)]
    rfl
  | cons c pre ih =>
    intro inner post hnin hshape
    rw [List.cons_append]
    simp only [scanUnit]
    by_cases hc : c = '('
    · rw [if_pos hc]
      by_cases hcond : ((pre ++ '(' :: (inner ++ ')' :: post)).dropWhile
          (fun d => d ≠ ')') ≠ [] ∧
          unitShape ((pre ++ '(' :: (inner ++ ')' :: post)).takeWhile
            (fun d => d ≠ ')')) = true)
      · rw [if_pos hcond]
        rfl
      · rw [if_neg hcond]
        exact ih inner post hnin hshape
    · rw [if_neg hc]
      exact ih inner post hnin hshape

theorem unitShape_mem_g {inner : Str} (h : unitShape inner = true) : 'g' ∈ inner := by
  rw [unitShape] at h
  split at h
  · next pre heq =>
    have : 'g' ∈ inner.reverse := by
      rw [heq]
      exact List.mem_cons_self _ _
    exact List.mem_reverse.mp this
  · next w pre heq =>
    have : 'g' ∈ inner.reverse := by
      rw [heq]
      exact List.mem_cons_self _ _
    exact List.mem_reverse.mp this
  · simp at h

theorem extract_unit_sound {s u : Str} (h : extract_unit (some s) = some u) :
    ∃ pre inner post, s = pre ++ '(' :: (inner ++ ')' :: post) ∧
      unitShape inner = true ∧ ')' ∉ inner ∧
      u = inner.filter (fun c => c ≠ ' ') := by
  rw [extract_unit] at h
  by_cases hs : s = []
  · rw [if_pos hs] at h
    simp at h
  · rw [if_neg hs] at h
    obtain ⟨inner, hscan, hf⟩ := Option.map_eq_some'.mp h
    obtain ⟨pre, post, hdec, hsh, hnin⟩ := scanUnit_sound s inner hscan
    exact ⟨pre, inner, post, hdec, hsh, hnin, hf.symm⟩

theorem extract_unit_complete (pre inner post : Str) (hnin : ')' ∉ inner)
    (hshape : unitShape inner = true) :
    (extract_unit (some (pre ++ '(' :: (inner ++ ')' :: post)))).isSome = true := by
  rw [extract_unit]
  rw [if_neg (by simp)]
  have hs := scanUnit_complete pre inner post hnin hshape
  cases hscan : scanUnit (pre ++ '(' :: (inner ++ ')' :: post)) with
  | none =>
    rw [hscan] at hs
    simp at hs
  | some v => rfl

theorem extract_unit_ne_nil {x : Option Str} {u : Str}
    (h : extract_unit x = some u) : u ≠ [] := by
  cases x with
  | none => simp [extract_unit] at h
  | some s =>
    obtain ⟨pre, inner, post, _, hshape, _, hu⟩ := extract_unit_sound h
    have hg : 'g' ∈ inner := unitShape_mem_g hshape
    have hgu : 'g' ∈ u := by
      rw [hu]
      exact List.mem_filter.mpr ⟨hg, by decide⟩
    intro hnil
    rw [hnil] at hgu
    simp at hgu

theorem deriveUnit_primary {fr eng : Option Str} {u : Str}
    (h : extract_unit fr = some u) : deriveUnit fr eng = some u := by
  rw [deriveUnit, h]
  simp only [pyOrStr]
  rw [if_neg (extract_unit_ne_nil h)]

theorem deriveUnit_fallback {fr eng : Option Str} (h : extract_unit fr = none) :
    deriveUnit fr eng = extract_unit eng := by
  rw [deriveUnit, h]
  rfl

end ScanUnitLemmas

theorem mem_of_lastVal_isSome {κ α : Type} [DecidableEq κ] {ps : List (κ × α)} {j : κ}
    (h : (lastVal ps j).isSome = true) : j ∈ ps.map Prod.fst := by
  induction ps with
  | nil => simp [lastVal] at h
  | cons p ps ih =>
    rw [lastVal_cons] at h
    cases hl : lastVal ps j with
    | some v =>
      simp only [List.map_cons, List.mem_cons]
      right
      exact ih (by rw [hl]; rfl)
    | none =>
      rw [hl] at h
      by_cases hp : p.1 = j
      · simp only [List.map_cons, List.mem_cons]
        left
        exact hp.symm
      · rw [if_neg hp] at h
        simp [orO] at h

/-! The claims. -/

/-- C1: the claim says a run that loads zero foods rolls everything back
and leaves no committed empty store visible. In the code the commit at
line 292 precedes the verification at lines 295 and 304, so the run
below signals the verification failure and nevertheless leaves the
newly committed store (nutrients loaded, Food table empty) in place of
the previously empty store — the rollback after the raise is a no-op. -/
theorem commit_precedes_verification :
    (runIngestion noFoodData emptyStore).2 = some LoadErr.validationFailure ∧
    (runIngestion noFoodData emptyStore).1 ≠ emptyStore ∧
    (runIngestion noFoodData emptyStore).1.nutrients =
      [((328 : ℤ), ⟨some "Energie".data, some "Energy".data, none⟩)] ∧
    (runIngestion noFoodData emptyStore).1.foods = [] := by
  decide

/-- C2: the query operation never raises: every input yields a list of
rows. A missing store or a statement that does not lexically start with
a read-only keyword yields exactly one error row without reaching the
store (second component false, so store content is untouched), and an
execution failure is captured as a single error row. -/
theorem query_gateway_spec : ∀ (env : QueryEnv) (sql : Str),
    (env.dbExists = false → queryRun env sql = ([errRow notInitMsg], false)) ∧
    (env.dbExists = true → startsReadOnly sql = false →
      queryRun env sql = ([errRow onlySelectMsg], false) ∧
      (queryRun env sql).1.length = 1) ∧
    (env.dbExists = true → startsReadOnly sql = true →
      (∀ e, env.exec sql = .error e →
        queryRun env sql = ([errRowFor e], true) ∧
        (queryRun env sql).1.length = 1) ∧
      (∀ rows, env.exec sql = .ok rows → queryRun env sql = (rows, true))) := by
  intro env sql
  refine ⟨?_, ?_, ?_⟩
  · intro h
    simp [queryRun, h]
  · intro h1 h2
    constructor
    · simp [queryRun, h1, h2]
    · simp [queryRun, h1, h2]
  · intro h1 h2
    constructor
    · intro e he
      constructor
      · simp [queryRun, h1, h2, he]
      · simp [queryRun, h1, h2, he]
    · intro rows hr
      simp [queryRun, h1, h2, hr]

/-- C2 witness: a DELETE statement against an existing store is
rejected with one error row and never reaches execution. -/
theorem query_gateway_spec_witness :
    queryRun rejectEnv "DELETE FROM foods WHERE alim_code = 2028".data =
      ([errRow onlySelectMsg], false) ∧
    startsReadOnly "DELETE FROM foods WHERE alim_code = 2028".data = false :=
  ⟨((query_gateway_spec rejectEnv
      "DELETE FROM foods WHERE alim_code = 2028".data).2.1 rfl (by decide)).1,
   by decide⟩

/-- C3 counterexample: this record has both identifiers present and a
parseable value, so by the claim a row should be stored and a malformed
record should never abort the load; the code instead raises from
int() and the whole composition load aborts with nothing stored. -/
theorem compo_nonint_id_aborts_cx :
    clean_text badCompoRec.alim_code ≠ none ∧
    clean_text badCompoRec.const_code ≠ none ∧
    parse_number badCompoRec.teneur ≠ none ∧
    loadCompoBatched [badCompoRec] [] = .error LoadErr.valueError := by
  decide

/-- C3 (amended): when every record is either storable or skippable —
absent identifier or unparseable value, but no present non-integer
identifier — the load succeeds, skipped records are dropped
individually, and a key holds a row exactly when some record with both
identifiers present, integer-parseable, and a parseable value
contributed it (last contribution winning, prior table content kept
otherwise); a record with a present non-integer identifier instead
aborts the whole load (see the counterexample). -/
theorem compo_load_amended (rs : List CompoRec) (t : Table (ℤ × ℤ) CompRow)
    (h : ∀ r ∈ rs, kvOk compoRowOf r = true) :
    loadCompoBatched rs t = .ok (upserts (validKVs compoRowOf rs) t) ∧
    (∀ k, lookup? (upserts (validKVs compoRowOf rs) t) k =
      orO (lastVal (validKVs compoRowOf rs) k) (lookup? t k)) ∧
    (∀ k, (lookup? (upserts (validKVs compoRowOf rs)
        ([] : Table (ℤ × ℤ) CompRow)) k).isSome = true ↔
      k ∈ (validKVs compoRowOf rs).map Prod.fst) := by
  refine ⟨?_, ?_, ?_⟩
  · rw [loadCompoBatched_eq]
    exact loadRecs_ok rs h t
  · intro k
    exact lookup_upserts _ _ _
  · intro k
    rw [lookup_upserts]
    constructor
    · intro hk
      cases hl : lastVal (validKVs compoRowOf rs) k with
      | some v => exact mem_of_lastVal_isSome (by rw [hl]; rfl)
      | none =>
        rw [hl] at hk
        simp [orO, lookup_nil] at hk
    · intro hk
      have hsome := lastVal_isSome_of_mem hk
      cases hl : lastVal (validKVs compoRowOf rs) k with
      | some v => simp [orO]
      | none =>
        rw [hl] at hsome
        simp at hsome

/-- C3 witness: a traces record is skipped while its well-formed
sibling in the same batch still loads. -/
theorem compo_load_amended_witness :
    (∀ r ∈ [tracesRec, goodRec], kvOk compoRowOf r = true) ∧
    loadCompoBatched [tracesRec, goodRec] [] =
      .ok (upserts (validKVs compoRowOf [tracesRec, goodRec]) []) :=
  ⟨by decide, (compo_load_amended [tracesRec, goodRec] [] (by decide)).1⟩

/-- C4: batching is observation-free: the batched composition loader
(batch size 1000, final partial batch flushed) produces the same result
as inserting the same records one by one, for every record list and
every starting table. -/
theorem batching_observation_free : ∀ (rs : List CompoRec) (t : Table (ℤ × ℤ) CompRow),
    loadCompoBatched rs t = loadCompoUnbatched rs t :=
  fun rs t => loadCompoBatched_eq rs t

/-- C5 counterexample: the claim says the fallback repair escapes only
unescaped ampersands, leaving already-escaped entities intact. The
food-file pass rewrites every ampersand, so an already-escaped entity
becomes double-escaped; the composition-file pass does not escape at
all. -/
theorem repair_double_escape_cx :
    repair_alim (asciiBytes "&amp;".data) = "&amp;amp;".data ∧
    repair_alim (asciiBytes "&amp;".data) ≠ "&amp;".data ∧
    repair_compo (asciiBytes "& <1Â°".data) = "& <1Â°".data := by
  decide

/-- C5 (amended): the food-file fallback decodes windows-1252 dropping
undecodable bytes, escapes every ampersand (already-escaped entities
become double-escaped; the rewritten bad literal contributes lt;
entities), and strips the control characters, so its output has every
ampersand heading an entity and no banned control character; the
composition-file fallback only decodes and strips control characters
and performs no ampersand escaping (ampersand count preserved). -/
theorem repair_pass_amended : ∀ bs : List ℕ,
    ampOk (repair_alim bs) = true ∧
    (repair_alim bs).filter strippedCtrl = [] ∧
    (repair_compo bs).filter strippedCtrl = [] ∧
    (repair_compo bs).count '&' = (decode1252 bs).count '&' := by
  intro bs
  refine ⟨?_, ?_, ?_, ?_⟩
  · rw [repair_alim, pyReplace_amp]
    rw [show pyReplace (escAmp (decode1252 bs)) ltPat ltRep =
      pyReplaceAux ltPat ltRep (escAmp (decode1252 bs)).length
        (escAmp (decode1252 bs)) from by rw [pyReplace, if_neg (by simp [ltPat])]]
    exact ampOk_stripCtrl _ _ le_rfl
      (ampOk_pyReplaceAux_lt _ _ le_rfl (ampOk_escAmp _))
  · exact filter_not_self strippedCtrl _
  · exact filter_not_self strippedCtrl _
  · exact count_amp_stripCtrl _

/-- C6: the locale number parser is absent on absent input and on the
sentinels (empty after strip, the dash, the word traces), and treats a
comma as the decimal point: for any digit strings before and after the
comma it returns the corresponding exact decimal value; the parser is a
total function into an option, so no input raises. -/
theorem parse_number_spec : ∀ (s d1 d2 : Str),
    parse_number none = none ∧
    ((pyStrip s = [] ∨ pyStrip s = "-".data ∨ pyStrip s = "traces".data) →
      parse_number (some s) = none) ∧
    (d1 ≠ [] → d2 ≠ [] → (∀ c ∈ d1, c.isDigit = true) →
      (∀ c ∈ d2, c.isDigit = true) →
      parse_number (some (d1 ++ ',' :: d2)) =
        some ((natVal d1 : ℚ) + (natVal d2 : ℚ) / (10 : ℚ) ^ d2.length)) := by
  intro s d1 d2
  exact ⟨rfl, parse_number_sentinel s,
    fun h1 h2 ha1 ha2 => parse_number_comma d1 d2 h1 h2 ha1 ha2⟩

/-- C6 witness: the dash sentinel with surrounding whitespace parses to
absent, and the comma decimal from the spec parses to twelve and a
half. -/
theorem parse_number_spec_witness :
    parse_number (some " - ".data) = none ∧
    parse_number (some "12,5".data) =
      some ((natVal "12".data : ℚ) +
        (natVal "5".data : ℚ) / (10 : ℚ) ^ ("5".data.length)) :=
  ⟨(parse_number_spec " - ".data [] []).2.1 (Or.inr (Or.inl (by decide))),
   (parse_number_spec [] "12".data "5".data).2.2 (by decide) (by decide)
     (by decide) (by decide)⟩

/-- C7 counterexample: the claim says internal whitespace is removed
from the matched unit. The regex optional-whitespace slot also matches
a tab, but the code removes only space characters, so the returned unit
keeps the tab. -/
theorem extract_unit_tab_cx :
    extract_unit (some tabUnitName) = some ['u', '/', '1', '0', '0', '\t', 'g'] ∧
    '\t' ∈ (['u', '/', '1', '0', '0', '\t', 'g'] : Str) ∧
    ('\t').isWhitespace = true := by
  decide

/-- C7 (amended): unit extraction is absent on falsy input; a returned
unit is exactly the content of the first parenthesized run matching the
unit shape with its space characters (only) removed — other whitespace
such as a tab survives, per the counterexample; whenever such a
parenthesized run occurs a unit is returned; and the unit of a nutrient
is derived from the primary-language name first with the
secondary-language name used only as a fallback. -/
theorem extract_unit_amended : ∀ (s u : Str) (fr eng : Option Str),
    extract_unit none = none ∧
    extract_unit (some []) = none ∧
    (extract_unit (some s) = some u →
      ∃ pre inner post, s = pre ++ '(' :: (inner ++ ')' :: post) ∧
        unitShape inner = true ∧ ')' ∉ inner ∧
        u = inner.filter (fun c => c ≠ ' ')) ∧
    (∀ pre inner post, ')' ∉ inner → unitShape inner = true →
      (extract_unit (some (pre ++ '(' :: (inner ++ ')' :: post)))).isSome = true) ∧
    ((extract_unit fr).isSome = true → deriveUnit fr eng = extract_unit fr) ∧
    (extract_unit fr = none → deriveUnit fr eng = extract_unit eng) := by
  intro s u fr eng
  refine ⟨rfl, rfl, extract_unit_sound, extract_unit_complete, ?_,
    deriveUnit_fallback⟩
  intro hs
  obtain ⟨v, hv⟩ := Option.isSome_iff_exists.mp hs
  rw [deriveUnit_primary hv, hv]

/-- C7 witness: the primary name wins when it has a unit, the secondary
name is used when the primary has none, and the spec examples
evaluate as stated. -/
theorem extract_unit_amended_witness :
    deriveUnit (some "Calcium (mg/100g)".data) (some "Energy".data) =
      extract_unit (some "Calcium (mg/100g)".data) ∧
    deriveUnit (some "Energy".data) (some "Energy (kJ/100g)".data) =
      extract_unit (some "Energy (kJ/100g)".data) ∧
    extract_unit (some "Calcium (mg/100g)".data) = some "mg/100g".data ∧
    extract_unit (some "Vitamin C (mg/100 g)".data) = some "mg/100g".data ∧
    extract_unit (some "Energy".data) = none :=
  ⟨(extract_unit_amended [] [] (some "Calcium (mg/100g)".data)
      (some "Energy".data)).2.2.2.2.1 (by decide),
   (extract_unit_amended [] [] (some "Energy".data)
      (some "Energy (kJ/100g)".data)).2.2.2.2.2 (by decide),
   by decide, by decide, by decide⟩

/-- C8: the text cleaner returns absent exactly when the input strips
to the empty string or to the sentinel missing, and otherwise returns
the stripped text; absent input stays absent. -/
theorem clean_text_spec : ∀ s : Str,
    clean_text none = none ∧
    (clean_text (some s) = none ↔
      (pyStrip s = [] ∨ pyStrip s = "missing".data)) ∧
    (pyStrip s ≠ [] → pyStrip s ≠ "missing".data →
      clean_text (some s) = some (pyStrip s)) := by
  intro s
  refine ⟨rfl, ⟨?_, ?_⟩, ?_⟩
  · intro h
    by_cases h1 : pyStrip s = []
    · exact Or.inl h1
    · by_cases h2 : pyStrip s = "missing".data
      · exact Or.inr h2
      · exfalso
        simp [clean_text, h1, h2] at h
  · intro h
    rcases h with h | h <;> simp [clean_text, h]
  · intro h1 h2
    simp [clean_text, h1, h2]

/-- C8 witness: surrounding whitespace is stripped, and the sentinel
maps to absent. -/
theorem clean_text_spec_witness :
    clean_text (some "  test  ".data) = some (pyStrip "  test  ".data) ∧
    clean_text (some " missing ".data) = none :=
  ⟨(clean_text_spec "  test  ".data).2.2 (by decide) (by decide),
   (clean_text_spec " missing ".data).2.1.mpr (Or.inr (by decide))⟩

/-- C9: ingestion is idempotent on any well-formed store: running the
full ingestion twice in succession leaves exactly the store of a single
run — all four tables and the rebuilt search index included, with no
duplicated keys since every write is an upsert by primary key — and a
successful first run makes the second run succeed with the identical
store. -/
theorem ingestion_idempotent (d : Dataset) (s : Store) (hWF : WFStore s) :
    (runIngestion d (runIngestion d s).1).1 = (runIngestion d s).1 ∧
    ((runIngestion d s).2 = none →
      runIngestion d (runIngestion d s).1 = ((runIngestion d s).1, none)) := by
  refine ⟨ingestion_state_idem d s hWF, ?_⟩
  intro h0
  cases hb : buildStore d s with
  | error e => simp [runIngestion, hb] at h0
  | ok s1 =>
    have h1 : (runIngestion d s).1 = s1 := runIngestion_fst hb
    have hb2 := buildStore_idem hWF hb
    have hlen : ¬ s1.foods.length = 0 := by
      intro hz
      simp only [runIngestion, hb] at h0
      rw [if_pos hz] at h0
      simp at h0
    rw [h1]
    simp only [runIngestion, hb2]
    rw [if_neg hlen]

/-- C9 witness: running the synthetic ingestion twice from the empty
store leaves the single-run store. -/
theorem ingestion_idempotent_witness :
    (runIngestion demoData (runIngestion demoData emptyStore).1).1 =
      (runIngestion demoData emptyStore).1 ∧
    ((runIngestion demoData emptyStore).2 = none →
      runIngestion demoData (runIngestion demoData emptyStore).1 =
        ((runIngestion demoData emptyStore).1, none)) :=
  ingestion_idempotent demoData emptyStore (by decide)

/-- C10: with no store file at the fixed path, every query — write
statements included — returns the single not-initialized error row and
never reaches execution; the check precedes the read-only lexical
validation, whose distinct rejection row is never produced. -/
theorem missing_store_precedence : ∀ (ex : Str → Except SqlExc (List Row)) (sql : Str),
    queryRun ⟨false, ex⟩ sql = ([errRow notInitMsg], false) ∧
    errRow notInitMsg ≠ errRow onlySelectMsg ∧
    startsReadOnly "insert into foods values (1, null, null, null)".data = false := by
  intro ex sql
  exact ⟨rfl, by decide, by decide⟩

end Ciqual
